import Mathlib

/-!
Shallow embedding of
`src/sage/geometry/polyhedron/combinatorial_polyhedron/bitsets.cc`.

A bitset is a caller-owned buffer of 64-bit limbs; we model it as a
`List Nat` whose entries are the limb values (each `< 2 ^ 64` for any
buffer the C program can hold).  `size_t` arithmetic is modelled on `Nat`:
for any buffer that fits in a 64-bit address space none of the `size_t`
computations of this file can overflow, and where a narrowing conversion
does occur in the source (the `int` return type of `bitset_in`) we model
the truncation explicitly.  Reads `bits[i]` become `bits.getD i 0` and
stores become `List.set`; all indices used by the claims are in bounds.
-/

/-- Number of bit positions to shift to convert a bit index to a limb
index (`const size_t index_shift = 6`). -/
def index_shift : Nat := 6

/-- Bits per limb (`const size_t LIMB_BITS = 64`). -/
def LIMB_BITS : Nat := 64

/-- The value `(size_t)(-1)` used by the source as the "not found"
sentinel of `_bitset_first_in_limb` and `bitset_next`. -/
def sentinel : Nat := 2 ^ 64 - 1

/-- Embedding of `limb_one_set_bit`:
`return (uint64_t) 1 << (n % LIMB_BITS);`.
Since `n % 64 < 64`, the 64-bit shift never overflows. -/
def limb_one_set_bit (n : Nat) : Nat := 1 <<< (n % LIMB_BITS)

/-- Embedding of `limb_one_zero_bit`:
`return !((uint64_t) 1 << (n % LIMB_BITS));`.
The source applies the C logical negation `!` (yielding `1` when the
operand is `0` and `0` otherwise), not the bitwise complement `~`; the
`if` below renders `!` exactly. -/
def limb_one_zero_bit (n : Nat) : Nat :=
  if 1 <<< (n % LIMB_BITS) = 0 then 1 else 0

/-- Embedding of `limb_lower_bits_down`:
`return ((uint64_t) 1 << (n % LIMB_BITS)) - 1;`. -/
def limb_lower_bits_down (n : Nat) : Nat := (1 <<< (n % LIMB_BITS)) - 1

/-- The 64-bit bitwise complement `~x` of C, for `x < 2 ^ 64`. -/
def limb_compl (x : Nat) : Nat := x ^^^ (2 ^ 64 - 1)

/-- Embedding of `bitset_in`:
`return bits[n >> index_shift] & limb_one_set_bit(n);`.
The function's return type is `int`; on every LP64/LLP64 platform the
64-bit operand is truncated to the low 32 bits by that conversion
(well defined modulo `2 ^ 32` on the compilers building this code), so
the embedding keeps the truncation.  The sign of the resulting `int` is
irrelevant to its use as a truth value, which only depends on the value
modulo `2 ^ 32` being zero or not. -/
def bitset_in (bits : List Nat) (n : Nat) : Nat :=
  (bits.getD (n >>> index_shift) 0 &&& limb_one_set_bit n) % 2 ^ 32

/-- Embedding of `bitset_discard`:
`bits[n >> index_shift] &= limb_one_zero_bit(n);`. -/
def bitset_discard (bits : List Nat) (n : Nat) : List Nat :=
  bits.set (n >>> index_shift)
    (bits.getD (n >>> index_shift) 0 &&& limb_one_zero_bit n)

/-- Embedding of `bitset_add`:
`bits[n >> index_shift] |= limb_one_set_bit(n);`. -/
def bitset_add (bits : List Nat) (n : Nat) : List Nat :=
  bits.set (n >>> index_shift)
    (bits.getD (n >>> index_shift) 0 ||| limb_one_set_bit n)

/-- Helper for the model of `mpn_scan1`: scan for the least significant
set bit among the `fuel` lowest bits of `limb`. -/
def mpn_scan1_aux (limb fuel : Nat) : Nat :=
  match fuel with
  | 0 => 0
  | fuel + 1 => if limb % 2 = 1 then 0 else 1 + mpn_scan1_aux (limb / 2) fuel

/-- Model of the GMP primitive `mpn_scan1(&limb, 0)` on a single 64-bit
limb: the index of the least significant set bit, found by scanning the
64 bits of the limb.  GMP documents the scan as undefined when no set
bit exists; the source only calls it on a nonzero limb, so the value
produced when the fuel runs out is never relied upon. -/
def mpn_scan1 (limb : Nat) : Nat := mpn_scan1_aux limb 64

/-- Embedding of `_bitset_first_in_limb`:
`if (limb == 0) return -1; return mpn_scan1(&limb, 0);`. -/
def _bitset_first_in_limb (limb : Nat) : Nat :=
  if limb = 0 then sentinel else mpn_scan1 limb

/-- Embedding of `_bitset_first_in_limb_nonzero`:
`return mpn_scan1(&limb, 0);` (the caller guarantees `limb != 0`). -/
def _bitset_first_in_limb_nonzero (limb : Nat) : Nat := mpn_scan1 limb

/-- Embedding of the `for(i++; i < face_length; i++)` loop of
`bitset_next`, entered with the first limb index to examine. -/
def bitset_next_loop (bits : List Nat) (face_length i : Nat) : Nat :=
  if i < face_length then
    if bits.getD i 0 ≠ 0 then
      (i <<< index_shift) ||| _bitset_first_in_limb_nonzero (bits.getD i 0)
    else bitset_next_loop bits face_length (i + 1)
  else sentinel
termination_by face_length - i

/-- Embedding of `bitset_next`. -/
def bitset_next (bits : List Nat) (face_length n : Nat) : Nat :=
  if face_length * LIMB_BITS ≤ n then sentinel
  else
    let i := n >>> index_shift
    let limb := bits.getD i 0 &&& limb_compl (limb_lower_bits_down n)
    let ret := _bitset_first_in_limb limb
    if ret ≠ sentinel then (i <<< index_shift) ||| ret
    else bitset_next_loop bits face_length (i + 1)

/-- Mathematical meaning of the data model: bit `i` of the bitset is bit
`i % 64` of limb `i / 64`. -/
def hasBit (bits : List Nat) (i : Nat) : Bool :=
  Nat.testBit (bits.getD (i / LIMB_BITS) 0) (i % LIMB_BITS)

/-- Iterating the scanner: starting from `n`, repeatedly call
`bitset_next` and continue from `result + 1`, collecting the results
until the sentinel is returned.  `fuel` is an upper bound on the number
of iterations; `64 * L + 1` always suffices. -/
def bitset_iter (bits : List Nat) (L fuel n : Nat) : List Nat :=
  match fuel with
  | 0 => []
  | fuel + 1 =>
    if bitset_next bits L n = sentinel then []
    else bitset_next bits L n :: bitset_iter bits L fuel (bitset_next bits L n + 1)

/-- State-passing embedding of `bitset_in` for the frame claim: the
result of the call paired with the final contents of the buffer.  The
body of the C function contains no store to `bits`, which is why the
final buffer is the initial one. -/
def bitset_in_mem (bits : List Nat) (n : Nat) : Nat × List Nat :=
  ((bits.getD (n >>> index_shift) 0 &&& limb_one_set_bit n) % 2 ^ 32, bits)

/-- State-passing embedding of the scan loop of `bitset_next`. -/
def bitset_next_loop_mem (bits : List Nat) (face_length i : Nat) : Nat × List Nat :=
  if i < face_length then
    if bits.getD i 0 ≠ 0 then
      ((i <<< index_shift) ||| _bitset_first_in_limb_nonzero (bits.getD i 0), bits)
    else bitset_next_loop_mem bits face_length (i + 1)
  else (sentinel, bits)
termination_by face_length - i

/-- State-passing embedding of `bitset_next`. -/
def bitset_next_mem (bits : List Nat) (face_length n : Nat) : Nat × List Nat :=
  if face_length * LIMB_BITS ≤ n then (sentinel, bits)
  else
    let i := n >>> index_shift
    let limb := bits.getD i 0 &&& limb_compl (limb_lower_bits_down n)
    let ret := _bitset_first_in_limb limb
    if ret ≠ sentinel then ((i <<< index_shift) ||| ret, bits)
    else bitset_next_loop_mem bits face_length (i + 1)

theorem shiftRight_index_eq (n : Nat) : n >>> index_shift = n / 64 := by
  show n >>> 6 = n / 64
  rw [Nat.shiftRight_eq_div_pow]

theorem mpn_scan1_aux_spec : ∀ fuel limb, limb ≠ 0 → limb < 2 ^ fuel →
    Nat.testBit limb (mpn_scan1_aux limb fuel) = true ∧
    ∀ j, j < mpn_scan1_aux limb fuel → Nat.testBit limb j = false := by
  intro fuel
  induction fuel with
  | zero =>
    intro limb h0 hlt
    simp only [Nat.pow_zero] at hlt
    omega
  | succ fuel ih =>
    intro limb h0 hlt
    by_cases hpar : limb % 2 = 1
    · simp only [mpn_scan1_aux, hpar, if_pos]
      refine ⟨?_, fun j hj => absurd hj (Nat.not_lt_zero j)⟩
      rw [Nat.testBit_zero]
      simp [hpar]
    · have h2 : limb / 2 ≠ 0 := by omega
      have h3 : limb / 2 < 2 ^ fuel := by
        rw [Nat.pow_succ] at hlt
        omega
      obtain ⟨ht, hmin⟩ := ih (limb / 2) h2 h3
      simp only [mpn_scan1_aux, hpar, if_false, ite_false]
      constructor
      · rw [Nat.add_comm]
        rw [show mpn_scan1_aux (limb / 2) fuel + 1 = (mpn_scan1_aux (limb / 2) fuel).succ from rfl]
        rw [Nat.testBit_succ]
        exact ht
      · intro j hj
        cases j with
        | zero =>
          rw [Nat.testBit_zero]
          simp only [decide_eq_false_iff_not]
          omega
        | succ j =>
          rw [Nat.testBit_succ]
          exact hmin j (by omega)

theorem mpn_scan1_spec (limb : Nat) (h0 : limb ≠ 0) (hw : limb < 2 ^ 64) :
    Nat.testBit limb (mpn_scan1 limb) = true ∧
    ∀ j, j < mpn_scan1 limb → Nat.testBit limb j = false :=
  mpn_scan1_aux_spec 64 limb h0 hw

theorem mpn_scan1_lt (limb : Nat) (h0 : limb ≠ 0) (hw : limb < 2 ^ 64) :
    mpn_scan1 limb < 64 := by
  by_contra hge
  push_neg at hge
  have ht := (mpn_scan1_spec limb h0 hw).1
  have h1 : 2 ^ mpn_scan1 limb ≤ limb := Nat.testBit_implies_ge ht
  have h2 : (2 : Nat) ^ 64 ≤ 2 ^ mpn_scan1 limb := Nat.pow_le_pow_right (by omega) hge
  omega

/-- C4 (code bug): the source computes `limb_one_zero_bit` with the C
logical negation `!` instead of the bitwise complement `~`, so at `n = 0`
it returns `0`, not the pattern `2 ^ 64 - 2` with exactly bit `0` clear
that the claim (and the source's own comment) describe. -/
theorem limb_one_zero_bit_is_zero :
    limb_one_zero_bit 0 = 0 ∧
      limb_one_set_bit 0 ^^^ (2 ^ 64 - 1) = 2 ^ 64 - 2 ∧
      limb_one_zero_bit 0 ≠ 2 ^ 64 - 2 := by
  refine ⟨by decide, by decide, by decide⟩

/-- C2 (code bug): because `limb_one_zero_bit` returns `0`,
`bitset_discard` clears the whole limb.  On the one-limb bitset `[3]`
(bits `0` and `1` set), discarding `0` also clears bit `1`. -/
theorem bitset_discard_clears_whole_limb :
    hasBit [3] 1 = true ∧ bitset_discard [3] 0 = [0] ∧ hasBit [0] 1 = false := by
  refine ⟨by decide, by decide, by decide⟩

/-- C3 (code bug): `bitset_in` returns `int`, truncating the 64-bit
test `bits[n >> 6] & limb_one_set_bit(n)` to its low 32 bits; for any
index with `n % 64 ≥ 32` the mask has no low bits, so the function
returns `0` (false) even though the bit is set: adding `32` to the
one-limb bitset `[0]` sets bit `32`, yet the membership test yields `0`. -/
theorem bitset_in_truncates :
    bitset_add [0] 32 = [4294967296] ∧
      hasBit [4294967296] 32 = true ∧
      bitset_in [4294967296] 32 = 0 ∧
      bitset_in (bitset_add [0] 32) 32 = 0 := by
  refine ⟨by decide, by decide, by decide, by decide⟩

/-- C5: on the two-limb bitset with set bits exactly `{3, 70, 127}`
(limbs `[2 ^ 3, 2 ^ 6 + 2 ^ 63]`), the scanner returns `3` from `0`,
`70` from `4`, `127` from `71`, and the sentinel from `128`. -/
theorem bitset_next_concrete_scenario :
    bitset_next [8, 9223372036854775872] 2 0 = 3 ∧
      bitset_next [8, 9223372036854775872] 2 4 = 70 ∧
      bitset_next [8, 9223372036854775872] 2 71 = 127 ∧
      bitset_next [8, 9223372036854775872] 2 128 = sentinel := by
  refine ⟨by decide, ?_, by decide, by decide⟩
  rw [bitset_next]
  norm_num
  rw [bitset_next_loop]
  norm_num
  decide

/-- C10: with limb count `0` the range check `n >= face_length * LIMB_BITS`
succeeds for every `n`, so `bitset_next` returns the sentinel without
reading any limb: the result is the sentinel for every buffer whatsoever. -/
theorem bitset_next_zero_limbs (bits : List Nat) (n : Nat) :
    bitset_next bits 0 n = sentinel := by
  simp [bitset_next, LIMB_BITS]

/-- C6: `bitset_add` and `bitset_discard` are idempotent: applying
either twice to a valid index yields the same bitset as applying it
once.  This holds even with the defective `limb_one_zero_bit`: the
second `discard` ands the already-zeroed limb with `0` again. -/
theorem add_discard_idempotent (bits : List Nat) (n : Nat)
    (hn : n < LIMB_BITS * bits.length) :
    bitset_add (bitset_add bits n) n = bitset_add bits n ∧
    bitset_discard (bitset_discard bits n) n = bitset_discard bits n := by
  have hn' : n < 64 * bits.length := hn
  have hi : n >>> index_shift < bits.length := by
    rw [shiftRight_index_eq]
    omega
  constructor
  · unfold bitset_add
    have h1 : (bits.set (n >>> index_shift)
          (bits.getD (n >>> index_shift) 0 ||| limb_one_set_bit n)).getD
          (n >>> index_shift) 0
        = bits.getD (n >>> index_shift) 0 ||| limb_one_set_bit n := by
      rw [List.getD_eq_getElem?_getD, List.getElem?_set_self (by simpa using hi)]
      rfl
    rw [h1, List.set_set]
    congr 1
    apply Nat.eq_of_testBit_eq
    intro j
    simp only [Nat.testBit_lor, Bool.or_assoc, Bool.or_self]
  · unfold bitset_discard
    have h1 : (bits.set (n >>> index_shift)
          (bits.getD (n >>> index_shift) 0 &&& limb_one_zero_bit n)).getD
          (n >>> index_shift) 0
        = bits.getD (n >>> index_shift) 0 &&& limb_one_zero_bit n := by
      rw [List.getD_eq_getElem?_getD, List.getElem?_set_self (by simpa using hi)]
      rfl
    rw [h1, List.set_set]
    congr 1
    apply Nat.eq_of_testBit_eq
    intro j
    simp only [Nat.testBit_land, Bool.and_assoc, Bool.and_self]

/-- Witness for C6 at the concrete bitset `[0]` and index `0`. -/
theorem add_discard_idempotent_witness :
    bitset_add (bitset_add [0] 0) 0 = bitset_add [0] 0 ∧
    bitset_discard (bitset_discard [0] 0) 0 = bitset_discard [0] 0 :=
  add_discard_idempotent [0] 0 (by decide)

/-- C7: `bitset_add` and `bitset_discard` store only into the limb at
index `n / 64`; every other limb of the buffer is unchanged. -/
theorem add_discard_frame (bits : List Nat) (n j : Nat)
    (hn : n < LIMB_BITS * bits.length) (hj : j ≠ n / LIMB_BITS) :
    (bitset_add bits n)[j]? = bits[j]? ∧ (bitset_discard bits n)[j]? = bits[j]? := by
  have hj' : j ≠ n / 64 := hj
  have hne : n >>> index_shift ≠ j := by
    rw [shiftRight_index_eq]
    exact Ne.symm hj'
  exact ⟨List.getElem?_set_ne hne, List.getElem?_set_ne hne⟩

/-- Witness for C7 at the concrete bitset `[1, 2]`, index `0`, other
limb `1`. -/
theorem add_discard_frame_witness :
    (bitset_add [1, 2] 0)[1]? = [(1 : Nat), 2][1]? ∧
    (bitset_discard [1, 2] 0)[1]? = [(1 : Nat), 2][1]? :=
  add_discard_frame [1, 2] 0 1 (by decide) (by decide)

/-- C8: the total word-level first-set-bit helper returns the sentinel
on the all-zero limb, and on every nonzero 64-bit limb the fast-path
variant (which skips the zero check) agrees with it, both returning the
index of the least significant set bit. -/
theorem first_in_limb_variants :
    _bitset_first_in_limb 0 = sentinel ∧
    ∀ limb : Nat, limb ≠ 0 → limb < 2 ^ 64 →
      _bitset_first_in_limb_nonzero limb = _bitset_first_in_limb limb ∧
      Nat.testBit limb (_bitset_first_in_limb limb) = true ∧
      ∀ j, j < _bitset_first_in_limb limb → Nat.testBit limb j = false := by
  constructor
  · rfl
  · intro limb h0 hw
    unfold _bitset_first_in_limb _bitset_first_in_limb_nonzero
    rw [if_neg h0]
    exact ⟨rfl, (mpn_scan1_spec limb h0 hw).1, (mpn_scan1_spec limb h0 hw).2⟩

/-- Witness for C8 at the concrete nonzero limb `4`. -/
theorem first_in_limb_variants_witness :
    _bitset_first_in_limb_nonzero 4 = _bitset_first_in_limb 4 ∧
    Nat.testBit 4 (_bitset_first_in_limb 4) = true :=
  ⟨(first_in_limb_variants.2 4 (by decide) (by decide)).1,
   (first_in_limb_variants.2 4 (by decide) (by decide)).2.1⟩

/-- C9: the read-only operations never mutate the bitset: in the
state-passing embedding, `bitset_in` and `bitset_next` (and its scan
loop) return the untouched buffer together with the pure result, for
every buffer, limb count and start index. -/
theorem readonly_no_mutation (bits : List Nat) (L n : Nat) :
    bitset_in_mem bits n = (bitset_in bits n, bits) ∧
    bitset_next_mem bits L n = (bitset_next bits L n, bits) := by
  refine ⟨rfl, ?_⟩
  have hloop : ∀ fuel i, L - i ≤ fuel →
      bitset_next_loop_mem bits L i = (bitset_next_loop bits L i, bits) := by
    intro fuel
    induction fuel with
    | zero =>
      intro i hi
      rw [bitset_next_loop_mem, bitset_next_loop]
      have hiL : ¬ i < L := by omega
      rw [if_neg hiL, if_neg hiL]
    | succ fuel ih =>
      intro i hi
      rw [bitset_next_loop_mem, bitset_next_loop]
      by_cases hiL : i < L
      · rw [if_pos hiL, if_pos hiL]
        by_cases hz : bits.getD i 0 ≠ 0
        · rw [if_pos hz, if_pos hz]
        · rw [if_neg hz, if_neg hz]
          exact ih (i + 1) (by omega)
      · rw [if_neg hiL, if_neg hiL]
  rw [bitset_next_mem, bitset_next]
  by_cases hc : L * LIMB_BITS ≤ n
  · rw [if_pos hc, if_pos hc]
  · rw [if_neg hc, if_neg hc]
    by_cases hr : _bitset_first_in_limb
        (bits.getD (n >>> index_shift) 0 &&& limb_compl (limb_lower_bits_down n)) ≠ sentinel
    · rw [if_pos hr, if_pos hr]
    · rw [if_neg hr, if_neg hr]
      exact hloop (L - (n >>> index_shift + 1)) (n >>> index_shift + 1) (Nat.le_refl _)

theorem lor_shift_eq_add (i r : Nat) (hr : r < 64) :
    (i <<< index_shift) ||| r = 64 * i + r := by
  have h64 : (64 : Nat) = 2 ^ 6 := by norm_num
  have hmod : ((i <<< index_shift) ||| r) % 64 = r := by
    conv_lhs => rw [h64]
    apply Nat.eq_of_testBit_eq
    intro j
    rw [Nat.testBit_mod_two_pow, Nat.testBit_lor]
    by_cases hj : j < 6
    · have hsl : Nat.testBit (i <<< index_shift) j = false := by
        rw [Nat.testBit_shiftLeft]
        simp [index_shift]
        omega
      simp [hj, hsl]
    · have h1 : Nat.testBit r j = false := by
        apply Nat.testBit_lt_two_pow
        calc r < 64 := hr
          _ = 2 ^ 6 := h64
          _ ≤ 2 ^ j := Nat.pow_le_pow_right (by omega) (by omega)
      simp [hj, h1]
  have hdiv : ((i <<< index_shift) ||| r) / 64 = i := by
    have hsh : ((i <<< index_shift) ||| r) / 64 = ((i <<< index_shift) ||| r) >>> 6 := by
      rw [Nat.shiftRight_eq_div_pow]
    rw [hsh]
    apply Nat.eq_of_testBit_eq
    intro j
    rw [Nat.testBit_shiftRight, Nat.testBit_lor, Nat.testBit_shiftLeft]
    have h1 : Nat.testBit r (6 + j) = false := by
      apply Nat.testBit_lt_two_pow
      calc r < 64 := hr
        _ = 2 ^ 6 := h64
        _ ≤ 2 ^ (6 + j) := Nat.pow_le_pow_right (by omega) (by omega)
    have h2 : 6 + j - index_shift = j := by
      simp [index_shift]
    simp [index_shift, h1, h2]
  omega

theorem testBit_limb_compl_lower (n j : Nat) :
    Nat.testBit (limb_compl (limb_lower_bits_down n)) j
      = (decide (n % 64 ≤ j) && decide (j < 64)) := by
  have hm : n % 64 < 64 := Nat.mod_lt n (by omega)
  show Nat.testBit ((1 <<< (n % 64) - 1) ^^^ (2 ^ 64 - 1)) j = _
  rw [Nat.shiftLeft_eq, one_mul, Nat.testBit_xor,
    Nat.testBit_two_pow_sub_one, Nat.testBit_two_pow_sub_one]
  rcases Nat.lt_or_ge j (n % 64) with h1 | h1
  · have h2 : j < 64 := by omega
    have h3 : ¬ n % 64 ≤ j := by omega
    simp [h1, h2, h3]
  · have h3 : ¬ j < n % 64 := by omega
    by_cases h2 : j < 64 <;> simp [h2, h3, h1]

theorem hasBit_split (bits : List Nat) (j i : Nat) (h : j / 64 = i) :
    hasBit bits j = Nat.testBit (bits.getD i 0) (j % 64) := by
  show Nat.testBit (bits.getD (j / 64) 0) (j % 64) = _
  rw [h]

theorem getD_lt (bits : List Nat) (hw : ∀ w ∈ bits, w < 2 ^ 64) (i : Nat) :
    bits.getD i 0 < 2 ^ 64 := by
  by_cases hi : i < bits.length
  · rw [List.getD_eq_getElem bits 0 hi]
    exact hw _ (List.getElem_mem hi)
  · rw [List.getD_eq_default bits 0 (by omega)]
    norm_num

theorem bitset_next_oob (bits : List Nat) (L n : Nat) (h : L * LIMB_BITS ≤ n) :
    bitset_next bits L n = sentinel := by
  rw [bitset_next, if_pos h]

theorem bitset_next_loop_char (bits : List Nat) (L : Nat)
    (hw : ∀ w ∈ bits, w < 2 ^ 64) : ∀ fuel i, L - i ≤ fuel →
    (bitset_next_loop bits L i = sentinel ∧
      ∀ j, 64 * i ≤ j → j < 64 * L → hasBit bits j = false) ∨
    (∃ m, bitset_next_loop bits L i = m ∧ 64 * i ≤ m ∧ m < 64 * L ∧
      hasBit bits m = true ∧ ∀ j, 64 * i ≤ j → j < m → hasBit bits j = false) := by
  intro fuel
  induction fuel with
  | zero =>
    intro i hi
    left
    rw [bitset_next_loop]
    have hiL : ¬ i < L := by omega
    rw [if_neg hiL]
    exact ⟨rfl, fun j h1 h2 => absurd h2 (by omega)⟩
  | succ fuel ih =>
    intro i hi
    by_cases hiL : i < L
    · rw [bitset_next_loop, if_pos hiL]
      by_cases hz : bits.getD i 0 ≠ 0
      · rw [if_pos hz]
        right
        have hwlt : bits.getD i 0 < 2 ^ 64 := getD_lt bits hw i
        have hs := mpn_scan1_spec (bits.getD i 0) hz hwlt
        have hslt : mpn_scan1 (bits.getD i 0) < 64 := mpn_scan1_lt (bits.getD i 0) hz hwlt
        refine ⟨64 * i + mpn_scan1 (bits.getD i 0),
          lor_shift_eq_add i (mpn_scan1 (bits.getD i 0)) hslt,
          by omega, by omega, ?_, ?_⟩
        · rw [hasBit_split bits (64 * i + mpn_scan1 (bits.getD i 0)) i (by omega)]
          have hmod : (64 * i + mpn_scan1 (bits.getD i 0)) % 64 = mpn_scan1 (bits.getD i 0) := by
            omega
          rw [hmod]
          exact hs.1
        · intro j h1 h2
          rw [hasBit_split bits j i (by omega)]
          exact hs.2 (j % 64) (by omega)
      · rw [if_neg hz]
        push_neg at hz
        have hword : ∀ j, 64 * i ≤ j → j < 64 * (i + 1) → hasBit bits j = false := by
          intro j hj1 hj2
          rw [hasBit_split bits j i (by omega), hz]
          exact Nat.zero_testBit (j % 64)
        rcases ih (i + 1) (by omega) with ⟨he, hnone⟩ | ⟨m, hm, h1, h2, h3, h4⟩
        · left
          refine ⟨he, fun j hj1 hj2 => ?_⟩
          by_cases hjw : j < 64 * (i + 1)
          · exact hword j hj1 hjw
          · exact hnone j (by omega) hj2
        · right
          refine ⟨m, hm, by omega, h2, h3, fun j hj1 hj2 => ?_⟩
          by_cases hjw : j < 64 * (i + 1)
          · exact hword j hj1 hjw
          · exact h4 j (by omega) hj2
    · left
      rw [bitset_next_loop, if_neg hiL]
      exact ⟨rfl, fun j h1 h2 => absurd h2 (by omega)⟩

theorem bitset_next_step (bits : List Nat) (L n : Nat) (h : ¬ L * LIMB_BITS ≤ n) :
    bitset_next bits L n =
      if _bitset_first_in_limb
          (bits.getD (n >>> index_shift) 0 &&& limb_compl (limb_lower_bits_down n)) ≠ sentinel
      then (n >>> index_shift) <<< index_shift |||
        _bitset_first_in_limb
          (bits.getD (n >>> index_shift) 0 &&& limb_compl (limb_lower_bits_down n))
      else bitset_next_loop bits L (n >>> index_shift + 1) := by
  rw [bitset_next, if_neg h]

theorem bitset_next_char (bits : List Nat) (L n : Nat)
    (hw : ∀ w ∈ bits, w < 2 ^ 64) (hn : n < 64 * L) :
    (bitset_next bits L n = sentinel ∧
      ∀ j, n ≤ j → j < 64 * L → hasBit bits j = false) ∨
    (∃ m, bitset_next bits L n = m ∧ n ≤ m ∧ m < 64 * L ∧
      hasBit bits m = true ∧ ∀ j, n ≤ j → j < m → hasBit bits j = false) := by
  have hcond : ¬ L * LIMB_BITS ≤ n := by
    show ¬ L * 64 ≤ n
    omega
  rw [bitset_next_step bits L n hcond, shiftRight_index_eq]
  have htb : ∀ k, Nat.testBit (bits.getD (n / 64) 0 &&& limb_compl (limb_lower_bits_down n)) k
      = (Nat.testBit (bits.getD (n / 64) 0) k && (decide (n % 64 ≤ k) && decide (k < 64))) := by
    intro k
    rw [Nat.testBit_land, testBit_limb_compl_lower]
  by_cases hz : bits.getD (n / 64) 0 &&& limb_compl (limb_lower_bits_down n) = 0
  · unfold _bitset_first_in_limb
    rw [if_pos hz, if_neg (show ¬ sentinel ≠ sentinel by simp)]
    have hword : ∀ j, n ≤ j → j < 64 * (n / 64 + 1) → hasBit bits j = false := by
      intro j hj1 hj2
      have hjd : j / 64 = n / 64 := by omega
      rw [hasBit_split bits j (n / 64) hjd]
      by_contra hbit
      simp only [Bool.not_eq_false] at hbit
      have hlimbbit : Nat.testBit
          (bits.getD (n / 64) 0 &&& limb_compl (limb_lower_bits_down n)) (j % 64) = true := by
        rw [htb, hbit]
        have c1 : n % 64 ≤ j % 64 := by omega
        have c2 : j % 64 < 64 := by omega
        simp [c1, c2]
      rw [hz, Nat.zero_testBit] at hlimbbit
      exact absurd hlimbbit (by simp)
    rcases bitset_next_loop_char bits L hw (L - (n / 64 + 1)) (n / 64 + 1) (Nat.le_refl _)
      with ⟨he, hnone⟩ | ⟨m, hm, h1, h2, h3, h4⟩
    · left
      refine ⟨he, fun j hj1 hj2 => ?_⟩
      by_cases hjw : j < 64 * (n / 64 + 1)
      · exact hword j hj1 hjw
      · exact hnone j (by omega) hj2
    · right
      refine ⟨m, hm, by omega, h2, h3, fun j hj1 hj2 => ?_⟩
      by_cases hjw : j < 64 * (n / 64 + 1)
      · exact hword j hj1 hjw
      · exact h4 j (by omega) hj2
  · unfold _bitset_first_in_limb
    rw [if_neg hz]
    have hlimb_lt : bits.getD (n / 64) 0 &&& limb_compl (limb_lower_bits_down n) < 2 ^ 64 :=
      Nat.lt_of_le_of_lt Nat.and_le_left (getD_lt bits hw (n / 64))
    have hs := mpn_scan1_spec _ hz hlimb_lt
    have hslt : mpn_scan1 (bits.getD (n / 64) 0 &&& limb_compl (limb_lower_bits_down n)) < 64 :=
      mpn_scan1_lt _ hz hlimb_lt
    have hsent : mpn_scan1 (bits.getD (n / 64) 0 &&& limb_compl (limb_lower_bits_down n))
        ≠ sentinel := by
      have h64 : (64 : Nat) ≤ sentinel := by decide
      omega
    rw [if_pos hsent]
    right
    have hmain := hs.1
    rw [htb] at hmain
    simp only [Bool.and_eq_true, decide_eq_true_eq] at hmain
    obtain ⟨hbit, hge, _⟩ := hmain
    refine ⟨64 * (n / 64) + mpn_scan1 (bits.getD (n / 64) 0 &&& limb_compl (limb_lower_bits_down n)),
      lor_shift_eq_add (n / 64) _ hslt, by omega, by omega, ?_, ?_⟩
    · rw [hasBit_split bits _ (n / 64) (by omega)]
      have hmod : (64 * (n / 64)
          + mpn_scan1 (bits.getD (n / 64) 0 &&& limb_compl (limb_lower_bits_down n))) % 64
          = mpn_scan1 (bits.getD (n / 64) 0 &&& limb_compl (limb_lower_bits_down n)) := by
        omega
      rw [hmod]
      exact hbit
    · intro j hj1 hj2
      have hjd : j / 64 = n / 64 := by omega
      rw [hasBit_split bits j (n / 64) hjd]
      have hjlt : j % 64
          < mpn_scan1 (bits.getD (n / 64) 0 &&& limb_compl (limb_lower_bits_down n)) := by
        omega
      have hf := hs.2 (j % 64) hjlt
      rw [htb] at hf
      have c1 : n % 64 ≤ j % 64 := by omega
      have c2 : j % 64 < 64 := by omega
      simpa [c1, c2] using hf

theorem bitset_iter_char (bits : List Nat) (L : Nat)
    (hw : ∀ w ∈ bits, w < 2 ^ 64) (hcap : 64 * L ≤ sentinel) :
    ∀ fuel n, 64 * L - n < fuel →
      List.Sorted (· < ·) (bitset_iter bits L fuel n) ∧
      ∀ j, j ∈ bitset_iter bits L fuel n ↔ (n ≤ j ∧ j < 64 * L ∧ hasBit bits j = true) := by
  intro fuel
  induction fuel with
  | zero =>
    intro n h
    exact absurd h (by omega)
  | succ fuel ih =>
    intro n h
    rw [bitset_iter]
    by_cases hn : n < 64 * L
    · rcases bitset_next_char bits L n hw hn with ⟨hs, hnone⟩ | ⟨m, hm, h1, h2, h3, h4⟩
      · rw [if_pos hs]
        refine ⟨List.sorted_nil, fun j => ⟨fun hf => absurd hf (List.not_mem_nil j), ?_⟩⟩
        rintro ⟨hj1, hj2, hj3⟩
        rw [hnone j hj1 hj2] at hj3
        exact absurd hj3 (by simp)
      · have hmne : bitset_next bits L n ≠ sentinel := by
          rw [hm]
          omega
        rw [if_neg hmne, hm]
        obtain ⟨ihs, ihm⟩ := ih (m + 1) (by omega)
        constructor
        · rw [List.sorted_cons]
          refine ⟨fun b hb => ?_, ihs⟩
          have := (ihm b).1 hb
          omega
        · intro j
          rw [List.mem_cons, ihm j]
          constructor
          · rintro (rfl | ⟨hj1, hj2, hj3⟩)
            · exact ⟨h1, h2, h3⟩
            · exact ⟨by omega, hj2, hj3⟩
          · rintro ⟨hj1, hj2, hj3⟩
            by_cases hjm : j = m
            · left
              exact hjm
            · right
              refine ⟨?_, hj2, hj3⟩
              by_contra hlt
              push_neg at hlt
              have hf := h4 j hj1 (by omega)
              rw [hf] at hj3
              exact absurd hj3 (by simp)
    · have hs : bitset_next bits L n = sentinel :=
        bitset_next_oob bits L n (by show L * 64 ≤ n; omega)
      rw [if_pos hs]
      refine ⟨List.sorted_nil, fun j => ⟨fun hf => absurd hf (List.not_mem_nil j), ?_⟩⟩
      rintro ⟨hj1, hj2, _⟩
      exact absurd hj2 (by omega)

/-- C1: contract of the forward scanner.  For a bitset of limb count
`L` whose limbs are 64-bit values (and whose capacity `64 * L` does not
swallow the sentinel, as for every buffer addressable on a 64-bit
machine): `bitset_next` returns the sentinel exactly when no bit at
index `>= n` is set below `64 * L`, returns the smallest set index
`>= n` when one exists, returns the sentinel when started exactly at
capacity, and iterating from `0` by restarting at `result + 1`
enumerates exactly the set bits in strictly increasing order. -/
theorem bitset_next_contract (bits : List Nat) (L n : Nat)
    (hL : bits.length = L) (hw : ∀ w ∈ bits, w < 2 ^ 64)
    (hcap : 64 * L ≤ sentinel) :
    ((∀ j, n ≤ j → j < 64 * L → hasBit bits j = false) →
      bitset_next bits L n = sentinel) ∧
    (∀ m, n ≤ m → m < 64 * L → hasBit bits m = true →
      (∀ j, n ≤ j → j < m → hasBit bits j = false) →
      bitset_next bits L n = m) ∧
    bitset_next bits L (L * 64) = sentinel ∧
    List.Sorted (· < ·) (bitset_iter bits L (64 * L + 1) 0) ∧
    (∀ j, j ∈ bitset_iter bits L (64 * L + 1) 0 ↔ (j < 64 * L ∧ hasBit bits j = true)) := by
  refine ⟨?_, ?_, ?_, ?_, ?_⟩
  · intro hnone
    by_cases hn : n < 64 * L
    · rcases bitset_next_char bits L n hw hn with ⟨hs, _⟩ | ⟨m, _, h1, h2, h3, _⟩
      · exact hs
      · rw [hnone m h1 h2] at h3
        exact absurd h3 (by simp)
    · exact bitset_next_oob bits L n (by show L * 64 ≤ n; omega)
  · intro m h1 h2 h3 h4
    have hn : n < 64 * L := by omega
    rcases bitset_next_char bits L n hw hn with ⟨_, hnone⟩ | ⟨m', hm', k1, k2, k3, k4⟩
    · rw [hnone m h1 h2] at h3
      exact absurd h3 (by simp)
    · rcases Nat.lt_trichotomy m m' with hlt | heq | hgt
      · rw [k4 m h1 hlt] at h3
        exact absurd h3 (by simp)
      · rw [hm', heq]
      · rw [h4 m' k1 hgt] at k3
        exact absurd k3 (by simp)
  · exact bitset_next_oob bits L (L * 64) (Nat.le_refl _)
  · exact (bitset_iter_char bits L hw hcap (64 * L + 1) 0 (by omega)).1
  · intro j
    rw [(bitset_iter_char bits L hw hcap (64 * L + 1) 0 (by omega)).2 j]
    exact ⟨fun h => ⟨h.2.1, h.2.2⟩, fun h => ⟨Nat.zero_le j, h.1, h.2⟩⟩

/-- Witness for C1 at the one-limb bitset `[1]` with start index `0`:
the minimal set index at or after `0` is `0`. -/
theorem bitset_next_contract_witness : bitset_next [1] 1 0 = 0 :=
  (bitset_next_contract [1] 1 0 rfl (by decide) (by decide)).2.1 0
    (Nat.le_refl 0) (by decide) (by decide)
    (fun j hj1 hj2 => absurd hj2 (Nat.not_lt_zero j))
